import Mathlib

/-!
Verification of the ORF-discovery core of this repository
(`RiboCop/common.py`, `RiboCop/prepare_orfs.py`).

Python integers are modelled as `Int`, nucleotide strings as `List Char`,
fallible code as `Except String`.  The genome sequence source (`fasta.py`,
not part of the core) is modelled as a function `Int → Char` giving the
base at each genomic position, and `reverse_complement` as reversal after
an arbitrary per-base complement function.
-/

set_option maxHeartbeats 1000000

namespace RiboCop

/-- Modelled from the spec: the `Interval` entity of `interval.py` (a file
not present in the sources), a contiguous genomic span
`\x7bchromosome, start, end (inclusive), strand\x7d`.  The inclusive `end`
field is named `stop` because `end` is a Lean keyword.  The Python
constructor has optional arguments (calls in the sources pass either all
four of chromosome/start/end/strand or only start/end), so chromosome and
strand are `Option`s, with `none` for an argument not supplied. -/
structure Interval where
  chrom : Option String := none
  start : Int := 0
  stop : Int := 0
  strand : Option String := none
deriving DecidableEq

/-- Inner while-loop of `merge_intervals` (common.py lines 51-58): `cur` is
the `to_merge` interval under construction; while the next sorted interval
starts at or before `cur.stop`, absorb it, extending `stop` to the max;
otherwise emit `cur` and start a fresh `to_merge` from the next interval.
As in the source, the fresh `to_merge` is built as `Interval(start, end)`,
so its chromosome and strand are left unset. -/
def mergeAux : Interval → List Interval → List Interval
  | cur, [] => [cur]
  | cur, x :: xs =>
    if x.start ≤ cur.stop then
      mergeAux ⟨cur.chrom, cur.start, max cur.stop x.stop, cur.strand⟩ xs
    else
      cur :: mergeAux ⟨none, x.start, x.stop, none⟩ xs

/-- Embedding of `merge_intervals` (common.py lines 36-59): sort the input
by `start` (Python's `sorted` is stable; `insertionSort` with `≤` on
`start` is the same stable sort) and sweep with `mergeAux`. -/
def merge_intervals (intervals : List Interval) : List Interval :=
  match List.insertionSort (fun a b => a.start ≤ b.start) intervals with
  | [] => []
  | x :: xs => mergeAux ⟨none, x.start, x.stop, none⟩ xs

instance : DecidableRel (fun a b : Interval => a.start ≤ b.start) :=
  fun a b => Int.decLe a.start b.start

instance : IsTotal Interval (fun a b => a.start ≤ b.start) :=
  ⟨fun a b => Int.le_total a.start b.start⟩

instance : IsTrans Interval (fun a b => a.start ≤ b.start) :=
  ⟨fun _ _ _ h1 h2 => le_trans h1 h2⟩

theorem mergeAux_spec (xs : List Interval) :
    ∀ cur : Interval,
      xs.Pairwise (fun a b => a.start ≤ b.start) →
      (∀ y ∈ xs, cur.start ≤ y.start) →
      (mergeAux cur xs).Pairwise (fun a b => a.start ≤ b.start) ∧
      (mergeAux cur xs).Pairwise (fun a b => a.stop < b.start) ∧
      (∀ z ∈ mergeAux cur xs, cur.start ≤ z.start) := by
  induction xs with
  | nil =>
    intro cur _ _
    refine ⟨by simp [mergeAux], by simp [mergeAux], ?_⟩
    intro z hz
    simp [mergeAux] at hz
    simp [hz]
  | cons x xs ih =>
    intro cur hsort hcur
    rw [List.pairwise_cons] at hsort
    obtain ⟨hx, hxs⟩ := hsort
    by_cases h : x.start ≤ cur.stop
    · have hcur' : ∀ y ∈ xs, (⟨cur.chrom, cur.start, max cur.stop x.stop,
          cur.strand⟩ : Interval).start ≤ y.start := by
        intro y hy
        exact hcur y (List.mem_cons_of_mem x hy)
      have := ih ⟨cur.chrom, cur.start, max cur.stop x.stop, cur.strand⟩ hxs hcur'
      simpa [mergeAux, h] using this
    · have hx' : ∀ y ∈ xs, (⟨none, x.start, x.stop, none⟩ : Interval).start ≤ y.start := by
      -- every later element starts at or after x
        intro y hy
        exact hx y hy
      obtain ⟨ih1, ih2, ih3⟩ := ih ⟨none, x.start, x.stop, none⟩ hxs hx'
      have hcx : cur.start ≤ x.start := hcur x (List.mem_cons_self x xs)
      have hstop : cur.stop < x.start := lt_of_not_ge h
      refine ⟨?_, ?_, ?_⟩
      · rw [mergeAux]
        simp only [if_neg h]
        rw [List.pairwise_cons]
        exact ⟨fun z hz => le_trans hcx (ih3 z hz), ih1⟩
      · rw [mergeAux]
        simp only [if_neg h]
        rw [List.pairwise_cons]
        exact ⟨fun z hz => lt_of_lt_of_le hstop (ih3 z hz), ih2⟩
      · intro z hz
        rw [mergeAux] at hz
        simp only [if_neg h, List.mem_cons] at hz
        rcases hz with rfl | hz
        · exact le_refl _
        · exact le_trans hcx (ih3 z hz)

/-- C7: for every finite input list (empty and singleton included), the
output of `merge_intervals` is sorted ascending by `start` and pairwise
non-overlapping (each interval ends strictly before the next starts), and
the empty input yields the empty output. -/
theorem merge_intervals_sorted_disjoint (l : List Interval) :
    (merge_intervals l).Pairwise (fun a b => a.start ≤ b.start) ∧
    (merge_intervals l).Pairwise (fun a b => a.stop < b.start) ∧
    merge_intervals ([] : List Interval) = [] := by
  refine ⟨?_, ?_, rfl⟩ <;>
  · have hsorted := List.sorted_insertionSort (fun a b : Interval => a.start ≤ b.start) l
    unfold merge_intervals
    rcases hs : List.insertionSort (fun a b : Interval => a.start ≤ b.start) l with
      _ | ⟨x, xs⟩
    · simp
    · rw [hs] at hsorted
      rw [List.Sorted, List.pairwise_cons] at hsorted
      obtain ⟨hx, hxs⟩ := hsorted
      have := mergeAux_spec xs ⟨none, x.start, x.stop, none⟩ hxs (fun y hy => hx y hy)
      tauto

/-- C4 counterexample: the two adjacent intervals `[1,5]` and `[6,10]`
(the second starts exactly one past the first's end) are NOT fused by
`merge_intervals`; the output still has two intervals. -/
theorem merge_intervals_adjacent_not_fused :
    (merge_intervals [⟨some "chr1", 1, 5, some "+"⟩,
      ⟨some "chr1", 6, 10, some "+"⟩]).length = 2 := by
  rfl

/-- C4 amended: only overlapping input intervals (sharing at least one
position, i.e. each starts at or before the other's end) are fused into a
single interval spanning from the smaller start to the larger end;
adjacent-but-disjoint inputs are kept separate. -/
theorem merge_intervals_overlapping_pair (a b : Interval)
    (h1 : b.start ≤ a.stop) (h2 : a.start ≤ b.stop) :
    merge_intervals [a, b] =
      [⟨none, min a.start b.start, max a.stop b.stop, none⟩] := by
  by_cases h : a.start ≤ b.start
  · have hsort : List.insertionSort (fun x y : Interval => x.start ≤ y.start) [a, b]
        = [a, b] := by
      simp [List.insertionSort, List.orderedInsert, h]
    unfold merge_intervals
    rw [hsort]
    show mergeAux ⟨none, a.start, a.stop, none⟩ [b] = _
    rw [mergeAux]
    simp only [if_pos h1]
    rw [mergeAux]
    congr 2 <;> omega
  · have hsort : List.insertionSort (fun x y : Interval => x.start ≤ y.start) [a, b]
        = [b, a] := by
      simp [List.insertionSort, List.orderedInsert, h]
    unfold merge_intervals
    rw [hsort]
    show mergeAux ⟨none, b.start, b.stop, none⟩ [a] = _
    rw [mergeAux]
    simp only [if_pos h2]
    rw [mergeAux]
    congr 2 <;> omega

/-- C4 amended claim witness at a concrete overlapping pair. -/
theorem merge_intervals_overlapping_pair_witness :
    ((5 : Int) ≤ 5 ∧ (1 : Int) ≤ 9) ∧
      merge_intervals [⟨some "chr1", 1, 5, some "+"⟩, ⟨some "chr1", 5, 9, some "+"⟩] =
        [⟨none, 1, 9, none⟩] := by
  refine ⟨by decide, ?_⟩
  have := merge_intervals_overlapping_pair
    ⟨some "chr1", 1, 5, some "+"⟩ ⟨some "chr1", 5, 9, some "+"⟩ (by decide) (by decide)
  simpa using this

/-- Total transcript-space length of an interval list:
`sum(i.end - i.start + 1 for i in intervals)` (prepare_orfs.py line 68). -/
def totalLen (intervals : List Interval) : Int :=
  (intervals.map (fun i => i.stop - i.start + 1)).sum

/-- One walk of the interval list with a running transcript-space offset
`cur` (prepare_orfs.py lines 76-91, used once for `start` and once for
`end`): the first interval with `cur + i_len > pos` contains transcript
offset `pos`, at genomic coordinate `i.start + pos - cur`; if the walk
falls off the end the Python variable stays `None`. -/
def findGenome (pos : Int) : Int → List Interval → Option Int
  | _, [] => none
  | cur, i :: rest =>
    if cur + (i.stop - i.start + 1) > pos then some (i.start + pos - cur)
    else findGenome pos (cur + (i.stop - i.start + 1)) rest

/-- Overlap-clipping loop of `transcript_to_genome_iv` (prepare_orfs.py
lines 93-99): for each interval, emit the overlap with
`[start_genome, end_genome]` clipped to the interval.  When either
genome coordinate is still `None` (query beyond the transcript) and the
interval list is non-empty, Python 3 raises `TypeError` at
`max(i.start, None)` / `min(i.end, None)`; that is modelled as an error
result. -/
def clipOverlap (start_genome end_genome : Option Int) :
    List Interval → Except String (List Interval)
  | [] => .ok []
  | i :: rest =>
    match start_genome with
    | none => .error "TypeError"
    | some sg =>
      match end_genome with
      | none => .error "TypeError"
      | some eg =>
        match clipOverlap start_genome end_genome rest with
        | .error msg => .error msg
        | .ok ivs =>
          .ok (if max i.start sg ≤ min i.stop eg then
                ⟨i.chrom, max i.start sg, min i.stop eg, i.strand⟩ :: ivs
              else ivs)

/-- Embedding of `transcript_to_genome_iv` (prepare_orfs.py lines 50-99):
map the transcript-space region `[start, end]` (inclusive) back onto the
genomic interval list.  If `reverse` is set, first remap the region to
`(total_len - end - 1, total_len - start - 1)`. -/
def transcript_to_genome_iv (start stop : Int) (intervals : List Interval)
    (reverse : Bool) : Except String (List Interval) :=
  let total_len := totalLen intervals
  let p := if reverse then (total_len - stop - 1, total_len - start - 1)
           else (start, stop)
  clipOverlap (findGenome p.1 0 intervals) (findGenome p.2 0 intervals) intervals

/-- C6: on the two-exon list `[100,149], [200,249]` (transcript length
100), the transcript-space query `[40, 59]` with `reverse` unset maps to
`[Interval(140,149), Interval(200,209)]`, split across the splice
junction. -/
theorem transcript_to_genome_iv_splice_junction :
    transcript_to_genome_iv 40 59
      [⟨some "chr1", 100, 149, some "+"⟩, ⟨some "chr1", 200, 249, some "+"⟩]
      false
    = .ok [⟨some "chr1", 140, 149, some "+"⟩, ⟨some "chr1", 200, 209, some "+"⟩] := by
  rfl

/-- List of genomic positions `lo, lo+1, ..., hi-1` (half-open). -/
def intRange (lo hi : Int) : List Int :=
  (List.range (hi - lo).toNat).map (fun k : Nat => lo + (k : Int))

/-- Modelled from the spec: the sequence source (`fasta.query`, fasta.py is
not in the sources) returns, for each interval, the nucleotide string of
the genomic span `[start, end]` inclusive; the genome itself is a function
from position to base. -/
def fetch (g : Int → Char) (iv : Interval) : List Char :=
  (intRange iv.start (iv.stop + 1)).map g

/-- Concatenation of the per-interval sequences in list order, i.e.
`''.join(fasta.query(intervals))` in `search_orfs`. -/
def mergedSeqF (g : Int → Char) (intervals : List Interval) : List Char :=
  (intervals.map (fetch g)).flatten

/-- Modelled from the spec: `fasta.reverse_complement` (fasta.py is not in
the sources) reverses the string after complementing each base; the
per-base complement table is an arbitrary parameter `comp`. -/
def revcomp (comp : Char → Char) (s : List Char) : List Char :=
  (s.map comp).reverse

/-- Pure version of the clipping loop for the case where both genome
coordinates were found. -/
def clipList (sg eg : Int) : List Interval → List Interval
  | [] => []
  | i :: rest =>
    if max i.start sg ≤ min i.stop eg then
      ⟨i.chrom, max i.start sg, min i.stop eg, i.strand⟩ :: clipList sg eg rest
    else clipList sg eg rest

theorem clipOverlap_some (sg eg : Int) (l : List Interval) :
    clipOverlap (some sg) (some eg) l = .ok (clipList sg eg l) := by
  induction l with
  | nil => rfl
  | cons i rest ih => rw [clipOverlap, ih]; rfl

theorem findGenome_shift (l : List Interval) :
    ∀ pos cur : Int, findGenome pos cur l = findGenome (pos - cur) 0 l := by
  induction l with
  | nil => intro pos cur; rfl
  | cons i rest ih =>
    intro pos cur
    rw [findGenome, findGenome]
    by_cases h : cur + (i.stop - i.start + 1) > pos
    · rw [if_pos h, if_pos (by omega)]
      congr 1
      omega
    · rw [if_neg h, if_neg (by omega)]
      rw [ih pos (cur + (i.stop - i.start + 1)), ih (pos - cur) (0 + (i.stop - i.start + 1))]
      congr 1
      omega

theorem totalLen_nonneg (l : List Interval)
    (hval : ∀ iv ∈ l, iv.start ≤ iv.stop) : 0 ≤ totalLen l := by
  induction l with
  | nil => simp [totalLen]
  | cons i rest ih =>
    have h1 : i.start ≤ i.stop := hval i (List.mem_cons_self i rest)
    have h2 : 0 ≤ totalLen rest := ih (fun iv hiv => hval iv (List.mem_cons_of_mem i hiv))
    simp only [totalLen, List.map_cons, List.sum_cons] at h2 ⊢
    omega

theorem totalLen_cons (i : Interval) (rest : List Interval) :
    totalLen (i :: rest) = (i.stop - i.start + 1) + totalLen rest := by
  simp [totalLen]

theorem findGenome_none_of_ge (l : List Interval) :
    ∀ pos : Int, (∀ iv ∈ l, iv.start ≤ iv.stop) → totalLen l ≤ pos →
      findGenome pos 0 l = none := by
  induction l with
  | nil => intro pos _ _; rfl
  | cons i rest ih =>
    intro pos hval hge
    have hrest : 0 ≤ totalLen rest :=
      totalLen_nonneg rest (fun iv hiv => hval iv (List.mem_cons_of_mem i hiv))
    rw [totalLen_cons] at hge
    rw [findGenome, if_neg (by omega), findGenome_shift]
    exact ih (pos - (0 + (i.stop - i.start + 1)))
      (fun iv hiv => hval iv (List.mem_cons_of_mem i hiv)) (by omega)

theorem findGenome_bounds (l : List Interval) :
    ∀ pos : Int, (∀ iv ∈ l, iv.start ≤ iv.stop) → 0 ≤ pos → pos < totalLen l →
      ∃ gp iv, iv ∈ l ∧ findGenome pos 0 l = some gp ∧
        iv.start ≤ gp ∧ gp ≤ iv.stop := by
  induction l with
  | nil =>
    intro pos _ h0 hlt
    simp [totalLen] at hlt
    omega
  | cons i rest ih =>
    intro pos hval h0 hlt
    have hi : i.start ≤ i.stop := hval i (List.mem_cons_self i rest)
    by_cases h : 0 + (i.stop - i.start + 1) > pos
    · refine ⟨i.start + pos - 0, i, List.mem_cons_self i rest, ?_, by omega, by omega⟩
      rw [findGenome, if_pos h]
    · rw [totalLen_cons] at hlt
      obtain ⟨gp, iv, hmem, heq, hb1, hb2⟩ :=
        ih (pos - (0 + (i.stop - i.start + 1)))
          (fun iv hiv => hval iv (List.mem_cons_of_mem i hiv)) (by omega) (by omega)
      exact ⟨gp, iv, List.mem_cons_of_mem i hmem,
        by rw [findGenome, if_neg h, findGenome_shift]; exact heq, hb1, hb2⟩

theorem clipList_skip (sg eg : Int) (l : List Interval)
    (h : ∀ iv ∈ l, eg < iv.start) : clipList sg eg l = [] := by
  induction l with
  | nil => rfl
  | cons i rest ih =>
    have hi : eg < i.start := h i (List.mem_cons_self i rest)
    rw [clipList, if_neg (by omega)]
    exact ih (fun iv hiv => h iv (List.mem_cons_of_mem i hiv))

theorem clipList_congr_low (sg sg2 eg : Int) (l : List Interval)
    (h1 : ∀ iv ∈ l, sg ≤ iv.start) (h2 : ∀ iv ∈ l, sg2 ≤ iv.start) :
    clipList sg eg l = clipList sg2 eg l := by
  induction l with
  | nil => rfl
  | cons i rest ih =>
    have e1 : max i.start sg = i.start :=
      max_eq_left (h1 i (List.mem_cons_self i rest))
    have e2 : max i.start sg2 = i.start :=
      max_eq_left (h2 i (List.mem_cons_self i rest))
    rw [clipList, clipList, e1, e2,
      ih (fun iv hiv => h1 iv (List.mem_cons_of_mem i hiv))
         (fun iv hiv => h2 iv (List.mem_cons_of_mem i hiv))]

theorem drop_range_eq (k n : Nat) :
    (List.range n).drop k = (List.range (n - k)).map (fun j => k + j) := by
  by_cases h : k ≤ n
  · have hdl := List.drop_left (List.range k) (List.map (fun x => k + x) (List.range (n - k)))
    rw [List.length_range] at hdl
    conv_lhs => rw [show n = k + (n - k) by omega, List.range_add]
    exact hdl
  · rw [show n - k = 0 by omega]
    simp [List.drop_eq_nil_of_le, List.length_range, le_of_lt (by omega : n < k)]

theorem intRange_drop (lo hi : Int) (k : Nat) :
    (intRange lo hi).drop k = intRange (lo + (k : Int)) hi := by
  unfold intRange
  rw [← List.map_drop, drop_range_eq, List.map_map]
  rw [show (hi - lo).toNat - k = (hi - (lo + (k : Int))).toNat by omega]
  apply List.map_congr_left
  intro a _
  simp only [Function.comp_apply]
  push_cast
  ring

theorem intRange_take (lo hi : Int) (k : Nat) :
    (intRange lo hi).take k = intRange lo (min hi (lo + (k : Int))) := by
  unfold intRange
  rw [← List.map_take, List.take_range]
  rw [show k ⊓ (hi - lo).toNat = (min hi (lo + (k : Int)) - lo).toNat by omega]

theorem fetch_length (g : Int → Char) (i : Interval) :
    (fetch g i).length = (i.stop + 1 - i.start).toNat := by
  simp [fetch, intRange]

theorem fetch_drop (g : Int → Char) (i : Interval) (s : Int) (h0 : 0 ≤ s) :
    (fetch g i).drop s.toNat = (intRange (i.start + s) (i.stop + 1)).map g := by
  unfold fetch
  rw [← List.map_drop, intRange_drop]
  rw [show i.start + ((s.toNat : Nat) : Int) = i.start + s by omega]

theorem fetch_slice (g : Int → Char) (i : Interval) (s e : Int)
    (h0 : 0 ≤ s) (hse : s ≤ e + 1) (he : e ≤ i.stop - i.start) :
    ((fetch g i).drop s.toNat).take (e + 1 - s).toNat
      = (intRange (i.start + s) (i.start + e + 1)).map g := by
  rw [fetch_drop g i s h0, ← List.map_take, intRange_take]
  rw [show i.start + s + (((e + 1 - s).toNat : Nat) : Int) = i.start + e + 1 by omega,
    min_eq_right (by omega : i.start + e + 1 ≤ i.stop + 1)]

theorem mergedSeqF_cons (g : Int → Char) (i : Interval) (rest : List Interval) :
    mergedSeqF g (i :: rest) = fetch g i ++ mergedSeqF g rest := by
  simp [mergedSeqF]

theorem mergedSeqF_length (g : Int → Char) (l : List Interval)
    (hval : ∀ iv ∈ l, iv.start ≤ iv.stop) :
    (mergedSeqF g l).length = (totalLen l).toNat := by
  induction l with
  | nil => simp [mergedSeqF, totalLen]
  | cons i rest ih =>
    have hi : i.start ≤ i.stop := hval i (List.mem_cons_self i rest)
    have hvalr : ∀ iv ∈ rest, iv.start ≤ iv.stop :=
      fun iv hiv => hval iv (List.mem_cons_of_mem i hiv)
    have hn := totalLen_nonneg rest hvalr
    rw [mergedSeqF_cons, List.length_append, fetch_length, ih hvalr, totalLen_cons]
    omega

theorem findGenome_cons_lt (i : Interval) (rest : List Interval) (pos : Int)
    (h : pos < i.stop - i.start + 1) :
    findGenome pos 0 (i :: rest) = some (i.start + pos) := by
  rw [findGenome, if_pos (by omega)]
  norm_num

theorem findGenome_cons_ge (i : Interval) (rest : List Interval) (pos : Int)
    (h : i.stop - i.start + 1 ≤ pos) :
    findGenome pos 0 (i :: rest) = findGenome (pos - (i.stop - i.start + 1)) 0 rest := by
  rw [findGenome, if_neg (by omega), findGenome_shift]
  norm_num

theorem clip_flatten_slice (g : Int → Char) (ivs : List Interval) :
    ∀ s e : Int,
      (∀ iv ∈ ivs, iv.start ≤ iv.stop) →
      List.Pairwise (fun a b => a.stop < b.start) ivs →
      0 ≤ s → s ≤ e → e < totalLen ivs →
      ∃ gs ge, findGenome s 0 ivs = some gs ∧ findGenome e 0 ivs = some ge ∧
        ((clipList gs ge ivs).map (fetch g)).flatten
          = ((mergedSeqF g ivs).drop s.toNat).take (e + 1 - s).toNat := by
  induction ivs with
  | nil =>
    intro s e _ _ h0 hse he
    simp [totalLen] at he
    omega
  | cons i rest ih =>
    intro s e hval hsep h0 hse he
    have hi : i.start ≤ i.stop := hval i (List.mem_cons_self i rest)
    have hvalr : ∀ iv ∈ rest, iv.start ≤ iv.stop :=
      fun iv hiv => hval iv (List.mem_cons_of_mem i hiv)
    rw [List.pairwise_cons] at hsep
    obtain ⟨hsep1, hsepr⟩ := hsep
    have hlen : (fetch g i).length = (i.stop + 1 - i.start).toNat := fetch_length g i
    rw [totalLen_cons] at he
    by_cases hs : s < i.stop - i.start + 1
    · have hgs : findGenome s 0 (i :: rest) = some (i.start + s) :=
        findGenome_cons_lt i rest s hs
      by_cases heL : e < i.stop - i.start + 1
      · have hge : findGenome e 0 (i :: rest) = some (i.start + e) :=
          findGenome_cons_lt i rest e heL
        refine ⟨_, _, hgs, hge, ?_⟩
        have hclip : clipList (i.start + s) (i.start + e) (i :: rest)
            = [⟨i.chrom, i.start + s, i.start + e, i.strand⟩] := by
          rw [clipList, if_pos (by omega)]
          rw [clipList_skip _ _ rest (fun iv hiv => by have := hsep1 iv hiv; omega)]
          rw [max_eq_right (by omega : i.start ≤ i.start + s),
            min_eq_right (by omega : i.start + e ≤ i.stop)]
        rw [hclip, List.map_cons, List.map_nil, List.flatten_cons, List.flatten_nil,
          List.append_nil, mergedSeqF_cons, List.drop_append_eq_append_drop,
          show s.toNat - (fetch g i).length = 0 by rw [hlen]; omega,
          List.drop_zero, List.take_append_eq_append_take,
          show (e + 1 - s).toNat - ((fetch g i).drop s.toNat).length = 0 by
            rw [List.length_drop, hlen]; omega,
          List.take_zero, List.append_nil]
        show (intRange (i.start + s) (i.start + e + 1)).map g = _
        exact (fetch_slice g i s e h0 (by omega) (by omega)).symm
      · have hge : findGenome e 0 (i :: rest)
            = findGenome (e - (i.stop - i.start + 1)) 0 rest :=
          findGenome_cons_ge i rest e (by omega)
        obtain ⟨gs2, ge2, hgs2, hge2, hseq2⟩ :=
          ih 0 (e - (i.stop - i.start + 1)) hvalr hsepr le_rfl (by omega) (by omega)
        rcases rest with _ | ⟨r0, rest2⟩
        · simp [totalLen] at he
          omega
        · have hr0 : r0.start ≤ r0.stop := hvalr r0 (List.mem_cons_self r0 rest2)
          have hgs2l : findGenome 0 0 (r0 :: rest2) = some (r0.start + 0) :=
            findGenome_cons_lt r0 rest2 0 (by omega)
          rw [hgs2l] at hgs2
          have hgs2v : r0.start + 0 = gs2 := Option.some.inj hgs2
          obtain ⟨gp, ivx, hivx, hgp, hb1, hb2⟩ :=
            findGenome_bounds (r0 :: rest2) (e - (i.stop - i.start + 1)) hvalr
              (by omega) (by omega)
          have hge2c := hge2
          rw [hgp] at hge2c
          have hge2v : gp = ge2 := Option.some.inj hge2c
          have hge_gt : i.stop < ge2 := by
            have := hsep1 ivx hivx
            omega
          refine ⟨i.start + s, ge2, hgs, by rw [hge]; exact hge2, ?_⟩
          have hclip : clipList (i.start + s) ge2 (i :: r0 :: rest2)
              = ⟨i.chrom, i.start + s, i.stop, i.strand⟩ ::
                  clipList gs2 ge2 (r0 :: rest2) := by
            rw [clipList, if_pos (by omega)]
            rw [max_eq_right (by omega : i.start ≤ i.start + s),
              min_eq_left (by omega : i.stop ≤ ge2)]
            congr 1
            exact clipList_congr_low (i.start + s) gs2 ge2 (r0 :: rest2)
              (fun iv hiv => by have := hsep1 iv hiv; omega)
              (fun iv hiv => by
                rw [List.mem_cons] at hiv
                rcases hiv with rfl | hiv
                · omega
                · have h1 := (List.pairwise_cons.mp hsepr).1 iv hiv
                  omega)
          rw [hclip, List.map_cons, List.flatten_cons,
            mergedSeqF_cons g i (r0 :: rest2), List.drop_append_eq_append_drop,
            show s.toNat - (fetch g i).length = 0 by rw [hlen]; omega,
            List.drop_zero, List.take_append_eq_append_take,
            List.take_of_length_le
              (show ((fetch g i).drop s.toNat).length ≤ (e + 1 - s).toNat by
                rw [List.length_drop, hlen]; omega),
            show (e + 1 - s).toNat - ((fetch g i).drop s.toNat).length
                = (e - (i.stop - i.start + 1) + 1 - 0).toNat by
              rw [List.length_drop, hlen]; omega]
          rw [hseq2, Int.toNat_zero, List.drop_zero]
          congr 1
          show (intRange (i.start + s) (i.stop + 1)).map g = _
          exact (fetch_drop g i s h0).symm
    · have hgs : findGenome s 0 (i :: rest)
          = findGenome (s - (i.stop - i.start + 1)) 0 rest :=
        findGenome_cons_ge i rest s (by omega)
      have hge : findGenome e 0 (i :: rest)
          = findGenome (e - (i.stop - i.start + 1)) 0 rest :=
        findGenome_cons_ge i rest e (by omega)
      obtain ⟨gs2, ge2, hgs2, hge2, hseq2⟩ :=
        ih (s - (i.stop - i.start + 1)) (e - (i.stop - i.start + 1)) hvalr hsepr
          (by omega) (by omega) (by omega)
      obtain ⟨gp, ivx, hivx, hgp, hb1, hb2⟩ :=
        findGenome_bounds rest (s - (i.stop - i.start + 1)) hvalr (by omega) (by omega)
      have hgs2c := hgs2
      rw [hgp] at hgs2c
      have hgs2v : gp = gs2 := Option.some.inj hgs2c
      have hgt : i.stop < gs2 := by
        have := hsep1 ivx hivx
        omega
      refine ⟨gs2, ge2, by rw [hgs]; exact hgs2, by rw [hge]; exact hge2, ?_⟩
      have hclip : clipList gs2 ge2 (i :: rest) = clipList gs2 ge2 rest := by
        rw [clipList, if_neg (by omega)]
      rw [hclip, mergedSeqF_cons g i rest, List.drop_append_eq_append_drop,
        List.drop_eq_nil_of_le
          (show (fetch g i).length ≤ s.toNat by rw [hlen]; omega),
        List.nil_append,
        show s.toNat - (fetch g i).length = (s - (i.stop - i.start + 1)).toNat by
          rw [hlen]; omega,
        show (e + 1 - s).toNat
            = (e - (i.stop - i.start + 1) + 1 - (s - (i.stop - i.start + 1))).toNat by
          omega]
      exact hseq2

theorem t2g_forward (g : Int → Char) (ivs : List Interval) (s e : Int)
    (hval : ∀ iv ∈ ivs, iv.start ≤ iv.stop)
    (hsep : List.Pairwise (fun a b => a.stop < b.start) ivs)
    (h0 : 0 ≤ s) (hse : s ≤ e) (he : e < totalLen ivs) :
    ∃ res, transcript_to_genome_iv s e ivs false = .ok res ∧
      (res.map (fetch g)).flatten
        = ((mergedSeqF g ivs).drop s.toNat).take (e + 1 - s).toNat := by
  obtain ⟨gs, ge, hgs, hge, hseq⟩ := clip_flatten_slice g ivs s e hval hsep h0 hse he
  refine ⟨clipList gs ge ivs, ?_, hseq⟩
  show clipOverlap (findGenome s 0 ivs) (findGenome e 0 ivs) ivs = _
  rw [hgs, hge, clipOverlap_some]

theorem reverse_drop_take (M : List Char) (a b : Nat) (hab : a + b ≤ M.length) :
    (M.reverse.drop a).take b = ((M.drop (M.length - a - b)).take b).reverse := by
  have h1 : M.reverse.drop a = (M.take (M.length - a)).reverse := by
    rw [List.reverse_take]
    congr 1
    omega
  rw [h1, List.take_reverse, List.length_take,
    show (M.length - a) ⊓ M.length - b = M.length - a - b by omega,
    List.drop_take,
    show M.length - a - (M.length - a - b) = b by omega]

/-- Abbreviation for the strand-dependent orientation step: reverse
complement the string when `reverse` is set, else leave it unchanged. -/
def revcompIf (comp : Char → Char) (reverse : Bool) (s : List Char) : List Char :=
  if reverse then revcomp comp s else s

/-- C1: round-trip guarantee of the coordinate mapper.  For any merged
transcript interval list (valid inclusive intervals, sorted and pairwise
disjoint, per the data-model invariant of an ordered interval list) and
any in-range transcript-space region `[s, e]`, mapping back to genomic
intervals, fetching and concatenating their sequences in genomic order,
and reverse-complementing when `reverse` is set, reproduces exactly the
substring `[s, e]` of the (possibly reverse-complemented) spliced
transcript sequence.  Stated for every genome `g` and every complement
table `comp`. -/
theorem transcript_to_genome_iv_roundtrip (g : Int → Char) (comp : Char → Char)
    (ivs : List Interval) (s e : Int) (reverse : Bool)
    (hval : ∀ iv ∈ ivs, iv.start ≤ iv.stop)
    (hsep : List.Pairwise (fun a b => a.stop < b.start) ivs)
    (h0 : 0 ≤ s) (hse : s ≤ e) (he : e < totalLen ivs) :
    ∃ res, transcript_to_genome_iv s e ivs reverse = .ok res ∧
      revcompIf comp reverse ((res.map (fetch g)).flatten)
        = ((revcompIf comp reverse (mergedSeqF g ivs)).drop s.toNat).take
            (e + 1 - s).toNat := by
  cases reverse
  · simpa [revcompIf] using t2g_forward g ivs s e hval hsep h0 hse he
  · have hLlen : (mergedSeqF g ivs).length = (totalLen ivs).toNat :=
      mergedSeqF_length g ivs hval
    obtain ⟨res, hres, hseq⟩ := t2g_forward g ivs
      (totalLen ivs - e - 1) (totalLen ivs - s - 1) hval hsep
      (by omega) (by omega) (by omega)
    refine ⟨res, ?_, ?_⟩
    · have heq : transcript_to_genome_iv s e ivs true
          = transcript_to_genome_iv (totalLen ivs - e - 1) (totalLen ivs - s - 1)
              ivs false := rfl
      rw [heq]
      exact hres
    · simp only [revcompIf, if_pos]
      rw [hseq,
        show (totalLen ivs - s - 1 + 1 - (totalLen ivs - e - 1)).toNat
          = (e + 1 - s).toNat by omega]
      unfold revcomp
      rw [reverse_drop_take (List.map comp (mergedSeqF g ivs)) s.toNat
          (e + 1 - s).toNat
          (by rw [List.length_map, hLlen]; omega),
        List.length_map, hLlen,
        show (totalLen ivs).toNat - s.toNat - (e + 1 - s).toNat
          = (totalLen ivs - e - 1).toNat by omega,
        ← List.map_drop, ← List.map_take]

/-- Example genome assigning base A to even positions and C to odd ones,
used to instantiate the round-trip theorem. -/
def exGenome2 : Int → Char := fun p => if p % 2 = 0 then 'A' else 'C'

/-- Example two-exon transcript model used to instantiate the round-trip
theorem. -/
def exIvs2 : List Interval :=
  [⟨some "chr1", 100, 149, some "+"⟩, ⟨some "chr1", 200, 249, some "+"⟩]

/-- C1 witness: the round-trip theorem applied on the two-exon transcript
with a reverse-strand query of transcript region `[40, 59]`. -/
theorem transcript_to_genome_iv_roundtrip_witness :
    ((∀ iv ∈ exIvs2, iv.start ≤ iv.stop) ∧ (0 : Int) ≤ 40 ∧ (40 : Int) ≤ 59 ∧
        (59 : Int) < totalLen exIvs2) ∧
    ∃ res, transcript_to_genome_iv 40 59 exIvs2 true = .ok res ∧
      revcompIf id true ((res.map (fetch exGenome2)).flatten)
        = ((revcompIf id true (mergedSeqF exGenome2 exIvs2)).drop
            ((40 : Int)).toNat).take ((59 : Int) + 1 - 40).toNat :=
  ⟨⟨by decide, by decide, by decide, by decide⟩,
    transcript_to_genome_iv_roundtrip exGenome2 id exIvs2 40 59 true
      (by decide) (by decide) (by decide) (by decide) (by decide)⟩

/-- C2 counterexample: querying the transcript-space region `[20, 25]` of
a single exon `[0, 8]` (transcript length 9, so the query is entirely
outside the range) does not return an empty list: the code hits Python 3's
`max(int, None)` comparison and raises `TypeError`. -/
theorem transcript_to_genome_iv_out_of_range_raises :
    transcript_to_genome_iv 20 25 [⟨some "chr1", 0, 8, some "+"⟩] false
      = .error "TypeError" := by
  rfl

/-- C2 amended: for a merged valid interval list with `reverse` unset,
(1) a query entirely below the transcript range (negative on both ends)
returns the empty list; (2) a query entirely above the range raises
`TypeError` (Python 3 `max(int, None)`) whenever the interval list is
non-empty, instead of returning an empty list; (3) an in-range query
returns a non-empty list. -/
theorem transcript_to_genome_iv_range (ivs : List Interval)
    (hval : ∀ iv ∈ ivs, iv.start ≤ iv.stop)
    (hsep : List.Pairwise (fun a b => a.stop < b.start) ivs) :
    (∀ s e : Int, s < 0 → e < 0 →
      transcript_to_genome_iv s e ivs false = .ok []) ∧
    (∀ s e : Int, totalLen ivs ≤ s → totalLen ivs ≤ e → ivs ≠ [] →
      transcript_to_genome_iv s e ivs false = .error "TypeError") ∧
    (∀ s e : Int, 0 ≤ s → s ≤ e → e < totalLen ivs →
      ∃ res, transcript_to_genome_iv s e ivs false = .ok res ∧ res ≠ []) := by
  refine ⟨?_, ?_, ?_⟩
  · intro s e hs he
    rcases ivs with _ | ⟨i0, rest⟩
    · rfl
    · have hi0 : i0.start ≤ i0.stop := hval i0 (List.mem_cons_self i0 rest)
      have hgs : findGenome s 0 (i0 :: rest) = some (i0.start + s) :=
        findGenome_cons_lt i0 rest s (by omega)
      have hge : findGenome e 0 (i0 :: rest) = some (i0.start + e) :=
        findGenome_cons_lt i0 rest e (by omega)
      show clipOverlap (findGenome s 0 (i0 :: rest)) (findGenome e 0 (i0 :: rest))
          (i0 :: rest) = _
      rw [hgs, hge, clipOverlap_some,
        clipList_skip (i0.start + s) (i0.start + e) (i0 :: rest)
          (fun iv hiv => by
            rw [List.mem_cons] at hiv
            rcases hiv with rfl | hiv
            · omega
            · have h1 := (List.pairwise_cons.mp hsep).1 iv hiv
              omega)]
  · intro s e hs _ hne
    rcases ivs with _ | ⟨i0, rest⟩
    · exact absurd rfl hne
    · have hgs : findGenome s 0 (i0 :: rest) = none :=
        findGenome_none_of_ge (i0 :: rest) s hval hs
      show clipOverlap (findGenome s 0 (i0 :: rest)) (findGenome e 0 (i0 :: rest))
          (i0 :: rest) = _
      rw [hgs]
      rfl
  · intro s e h0 hse he
    obtain ⟨res, hres, hseq⟩ :=
      t2g_forward (fun _ => 'A') ivs s e hval hsep h0 hse he
    refine ⟨res, hres, ?_⟩
    intro hnil
    subst hnil
    simp only [List.map_nil, List.flatten_nil] at hseq
    have hlenth := congrArg List.length hseq
    rw [List.length_take, List.length_drop,
      mergedSeqF_length (fun _ => 'A') ivs hval] at hlenth
    simp only [List.length_nil] at hlenth
    omega

/-- C2 amended claim witness: the below-range branch applied at a concrete
query. -/
theorem transcript_to_genome_iv_range_witness :
    transcript_to_genome_iv (-5) (-2) [⟨some "chr1", 0, 8, some "+"⟩] false
      = .ok [] :=
  (transcript_to_genome_iv_range [⟨some "chr1", 0, 8, some "+"⟩]
    (by decide) (by decide)).1 (-5) (-2) (by decide) (by decide)

/-- Feature record (one GTF track line) as used by `tracks_to_ivs` and the
UTR partition of `prepare_orfs`; transcript/gene metadata fields not read
by the verified code are omitted. -/
structure GTFTrack where
  chrom : String
  start : Int
  stop : Int
  strand : String
deriving DecidableEq

/-- Embedding of `tracks_to_ivs` (prepare_orfs.py lines 24-47): if the
records do not share exactly one chromosome and one strand, report and
return `None`; otherwise reinterpret the records as Intervals carrying the
shared chromosome/strand and merge them. -/
def tracks_to_ivs (tracks : List GTFTrack) : Option (List Interval) :=
  if (tracks.map GTFTrack.chrom).dedup.length ≠ 1 ∨
      (tracks.map GTFTrack.strand).dedup.length ≠ 1 then
    none
  else
    some (merge_intervals (tracks.map (fun track =>
      ⟨some ((tracks.map GTFTrack.chrom).dedup.headI),
        track.start, track.stop,
        some ((tracks.map GTFTrack.strand).dedup.headI)⟩)))

/-- C3 evaluation at the failing input: a single-record group on
chromosome chr1, strand `+`, spanning `[1, 5]`.  The merge step rebuilds
the interval as `Interval(start, end)`, so the returned interval carries
no chromosome and no strand (both `None`) instead of the shared
chr1 / `+`. -/
theorem tracks_to_ivs_drops_chrom_strand :
    tracks_to_ivs [⟨"chr1", 1, 5, "+"⟩] = some [⟨none, 1, 5, none⟩] := by
  rfl

/-- Classification of a 5'/3' UTR kind. -/
inductive UTRClass where
  | utr5
  | utr3
deriving DecidableEq

/-- Embedding of the per-record UTR partition step of `prepare_orfs`
(prepare_orfs.py lines 244-259), given the gene's first CDS start and last
CDS end: a record starting before the first CDS start has its end clipped
to `first_cds.start - 1` when it reaches the CDS, and goes to the 5' list
on `+` strand, 3' on `-`; symmetrically a record ending after the last CDS
end has its start clipped to `last_cds.end + 1` when it reaches the CDS,
and goes to the 3' list on `+` strand, 5' on `-`; any other record is
dropped. -/
def classify_utr_track (first_cds_start last_cds_stop : Int) (track : GTFTrack) :
    Option (UTRClass × GTFTrack) :=
  if track.start < first_cds_start then
    let track := if track.stop ≥ first_cds_start then
        { track with stop := first_cds_start - 1 } else track
    if track.strand = "+" then some (UTRClass.utr5, track)
    else some (UTRClass.utr3, track)
  else if track.stop > last_cds_stop then
    let track := if track.start ≤ last_cds_stop then
        { track with start := last_cds_stop + 1 } else track
    if track.strand = "+" then some (UTRClass.utr3, track)
    else some (UTRClass.utr5, track)
  else none

/-- C8: a UTR record that starts before the gene's first CDS start is kept,
its end clipped to `first_cds.start - 1` exactly when it overlaps the CDS
span, and it is classified 5' on the `+` strand and 3' on the `-` strand. -/
theorem classify_utr_track_before_first_cds (first_cds_start last_cds_stop : Int)
    (track : GTFTrack) (h : track.start < first_cds_start) :
    classify_utr_track first_cds_start last_cds_stop track =
      some (if track.strand = "+" then UTRClass.utr5 else UTRClass.utr3,
        if first_cds_start ≤ track.stop then
          { track with stop := first_cds_start - 1 } else track) := by
  unfold classify_utr_track
  rw [if_pos h]
  by_cases hov : track.stop ≥ first_cds_start
  · simp only [if_pos hov, if_pos (show first_cds_start ≤ track.stop from hov)]
    by_cases hst : track.strand = "+" <;> simp [hst]
  · simp only [if_neg hov, if_neg (show ¬first_cds_start ≤ track.stop from hov)]
    by_cases hst : track.strand = "+" <;> simp [hst]

/-- C8 witness: the UTR record `[80, 250]` on the `+` strand, with
`first_cds.start = 120`, is clipped to `[80, 119]` and classified 5'. -/
theorem classify_utr_track_before_first_cds_witness :
    ((80 : Int) < 120) ∧
    classify_utr_track 120 500 ⟨"chr1", 80, 250, "+"⟩
      = some (UTRClass.utr5, ⟨"chr1", 80, 119, "+"⟩) :=
  ⟨by decide, by
    have h := classify_utr_track_before_first_cds 120 500
      ⟨"chr1", 80, 250, "+"⟩ (by decide)
    simpa using h⟩

/-- Stop codon set of `search_orfs` (prepare_orfs.py line 163). -/
def stop_codons : List (List Char) :=
  [['T', 'A', 'G'], ['T', 'A', 'A'], ['T', 'G', 'A']]

/-- Alternative start codon set of `search_orfs` (prepare_orfs.py lines
159-162); the duplicated `ACG` entry of the source collapses in the set. -/
def start_codons : List (List Char) :=
  [['A', 'T', 'G'], ['T', 'T', 'G'], ['C', 'T', 'G'], ['G', 'T', 'G'],
   ['A', 'A', 'G'], ['A', 'G', 'G'], ['A', 'C', 'G'], ['A', 'T', 'A'],
   ['A', 'T', 'T'], ['A', 'T', 'C']]

/-- Inner frame scan of `search_orfs` (prepare_orfs.py lines 171-172):
`for i in range(start, len(merged_seq), 3)`, returning the first in-frame
position whose 3-character slice is a stop codon, if any. -/
def scanStop (merged_seq : List Char) (start : Nat) : Option Nat :=
  (List.range' start ((merged_seq.length - start + 2) / 3) 3).find?
    (fun i => decide ((merged_seq.drop i).take 3 ∈ stop_codons))

/-- Python's `merged_seq.find(sc, cur)` (prepare_orfs.py line 167): the
first position `j ≥ cur` with `j + len(sc) ≤ len(merged_seq)` where `sc`
occurs, if any. -/
def strFind (merged_seq pat : List Char) (cur : Nat) : Option Nat :=
  (List.range' cur (merged_seq.length + 1 - pat.length - cur)).find?
    (fun j => decide ((merged_seq.drop j).take pat.length = pat))

/-- One candidate ORF tuple `(ivs, seq, leader, trailer)` as produced by
`search_orfs`. -/
structure Candidate where
  ivs : List Interval
  seq : List Char
  leader : List Char
  trailer : List Char
deriving DecidableEq

/-- Body of the stop-codon branch of `search_orfs` (prepare_orfs.py lines
172-181) for one start position: find the first in-frame stop, map
`[start, i+2]` back to genomic coordinates, and build the candidate tuple
(sequence `merged_seq[start:i]`, leader `merged_seq[:start]`, trailer
`merged_seq[i:]`), emitted only when the mapper returned a non-empty
list. -/
def orfAt (merged_seq : List Char) (intervals : List Interval) (reverse : Bool)
    (start : Nat) : Except String (Option Candidate) :=
  match scanStop merged_seq start with
  | none => .ok none
  | some i =>
    match transcript_to_genome_iv (start : Int) ((i : Int) + 2) intervals reverse with
    | .error msg => .error msg
    | .ok ivs =>
      if ivs.isEmpty then .ok none
      else .ok (some ⟨ivs, (merged_seq.drop start).take (i - start),
        merged_seq.take start, merged_seq.drop i⟩)

/-- Per-codon cursor loop of `search_orfs` (prepare_orfs.py lines
165-181): `while cur < len(merged_seq)`, find the next occurrence of the
start codon at or after `cur`, advance the cursor just past it, and
collect the candidate (if any) for that occurrence.  The cursor strictly
increases each iteration, so a fuel of `len(merged_seq) + 1` (supplied by
the caller) always suffices to reach the loop's own exit condition. -/
def scanCodon (merged_seq : List Char) (intervals : List Interval)
    (reverse : Bool) (sc : List Char) : Nat → Nat → Except String (List Candidate)
  | 0, _ => .ok []
  | fuel + 1, cur =>
    if cur < merged_seq.length then
      match strFind merged_seq sc cur with
      | none => .ok []
      | some start =>
        match orfAt merged_seq intervals reverse start with
        | .error msg => .error msg
        | .ok c =>
          match scanCodon merged_seq intervals reverse sc fuel (start + 1) with
          | .error msg => .error msg
          | .ok rest => .ok (c.toList ++ rest)
    else .ok []

/-- Outer loop of `search_orfs` over the start codon set (prepare_orfs.py
line 164), concatenating each codon's candidates. -/
def searchCodons (merged_seq : List Char) (intervals : List Interval)
    (reverse : Bool) : List (List Char) → Except String (List Candidate)
  | [] => .ok []
  | sc :: rest =>
    match scanCodon merged_seq intervals reverse sc (merged_seq.length + 1) 0 with
    | .error msg => .error msg
    | .ok a =>
      match searchCodons merged_seq intervals reverse rest with
      | .error msg => .error msg
      | .ok b => .ok (a ++ b)

/-- The spliced transcript sequence that `search_orfs` scans
(prepare_orfs.py lines 151-158): merge the intervals, fetch and join their
sequences, and reverse-complement when the first merged interval's strand
is `-`. -/
def scannedSeq (g : Int → Char) (comp : Char → Char)
    (intervals : List Interval) : List Char :=
  match merge_intervals intervals with
  | [] => []
  | m0 :: rest =>
    if m0.strand = some "-" then revcomp comp (mergedSeqF g (m0 :: rest))
    else mergedSeqF g (m0 :: rest)

/-- Embedding of `search_orfs` (prepare_orfs.py lines 127-182): empty
input yields no candidates; otherwise merge the intervals, build the
scanned sequence, and run the codon scan.  Indexing `intervals[0]` on an
empty merge result would raise in Python; the merge of a non-empty list is
never empty, so that branch is unreachable. -/
def search_orfs (g : Int → Char) (comp : Char → Char)
    (intervals : List Interval) : Except String (List Candidate) :=
  if intervals.isEmpty then .ok []
  else
    match merge_intervals intervals with
    | [] => .error "IndexError"
    | m0 :: rest =>
      searchCodons (scannedSeq g comp intervals) (m0 :: rest)
        (decide (m0.strand = some "-")) start_codons

/-- Example genome spelling ATGAAATAG at positions 0-8. -/
def exGenome : Int → Char :=
  fun p => (['A', 'T', 'G', 'A', 'A', 'A', 'T', 'A', 'G']).getD p.toNat 'N'

/-- C5: `search_orfs` on the single-exon `+`-strand transcript `[0, 8]`
whose sequence is ATGAAATAG returns exactly one candidate: coding
sequence ATGAAA, genomic interval list `[Interval(0, 8)]` (inclusive of
the stop codon), empty leader, and trailer TAG. -/
theorem search_orfs_single_exon :
    search_orfs exGenome id [⟨some "chr1", 0, 8, some "+"⟩]
      = .ok [⟨[⟨none, 0, 8, none⟩], ['A', 'T', 'G', 'A', 'A', 'A'], [],
          ['T', 'A', 'G']⟩] := by
  rfl

theorem stop_codon_length (x : List Char) (h : x ∈ stop_codons) :
    x.length = 3 := by
  simp only [stop_codons, List.mem_cons, List.not_mem_nil, or_false] at h
  rcases h with rfl | rfl | rfl <;> rfl

theorem scanStop_spec (merged_seq : List Char) (start i : Nat)
    (h : scanStop merged_seq start = some i) :
    start ≤ i ∧ (i - start) % 3 = 0 ∧ i + 3 ≤ merged_seq.length ∧
      (merged_seq.drop i).take 3 ∈ stop_codons := by
  unfold scanStop at h
  have hmem := List.mem_of_find?_eq_some h
  have hpred := List.find?_some h
  rw [List.mem_range'] at hmem
  obtain ⟨m, _, rfl⟩ := hmem
  have hstop : (merged_seq.drop (start + 3 * m)).take 3 ∈ stop_codons :=
    of_decide_eq_true hpred
  have hlen3 : ((merged_seq.drop (start + 3 * m)).take 3).length = 3 :=
    stop_codon_length _ hstop
  rw [List.length_take, List.length_drop] at hlen3
  exact ⟨by omega, by omega, by omega, hstop⟩

theorem take_mid_drop (l : List Char) (s i : Nat) (h : s ≤ i) :
    l.take s ++ ((l.drop s).take (i - s)) ++ l.drop i = l := by
  rw [(List.drop_take i s l).symm,
    show l.take s = (l.take i).take s from by rw [List.take_take, min_eq_left h],
    List.take_append_drop, List.take_append_drop]

theorem orfAt_ok_some (merged_seq : List Char) (intervals : List Interval)
    (reverse : Bool) (start : Nat) (c : Candidate)
    (h : orfAt merged_seq intervals reverse start = .ok (some c)) :
    ∃ i, scanStop merged_seq start = some i ∧
      c.seq = (merged_seq.drop start).take (i - start) ∧
      c.leader = merged_seq.take start ∧ c.trailer = merged_seq.drop i := by
  unfold orfAt at h
  rcases hscan : scanStop merged_seq start with _ | i
  · simp only [hscan] at h
    exact Option.noConfusion (Except.ok.inj h)
  · simp only [hscan] at h
    rcases ht : transcript_to_genome_iv (start : Int) ((i : Int) + 2)
        intervals reverse with msg | ivs2
    · simp only [ht] at h
      exact Except.noConfusion h
    · simp only [ht] at h
      by_cases he : ivs2.isEmpty
      · rw [if_pos he] at h
        exact Option.noConfusion (Except.ok.inj h)
      · rw [if_neg he] at h
        have hc := Option.some.inj (Except.ok.inj h)
        exact ⟨i, rfl, by rw [← hc], by rw [← hc], by rw [← hc]⟩

theorem orfAt_reconstruct (merged_seq : List Char) (intervals : List Interval)
    (reverse : Bool) (start : Nat) (c : Candidate)
    (h : orfAt merged_seq intervals reverse start = .ok (some c)) :
    c.leader ++ c.seq ++ c.trailer = merged_seq := by
  obtain ⟨i, hscan, hseq, hlead, htrail⟩ :=
    orfAt_ok_some merged_seq intervals reverse start c h
  obtain ⟨hsi, -, -, -⟩ := scanStop_spec merged_seq start i hscan
  rw [hseq, hlead, htrail]
  exact take_mid_drop merged_seq start i hsi

theorem orfAt_frame (merged_seq : List Char) (intervals : List Interval)
    (reverse : Bool) (start : Nat) (c : Candidate)
    (h : orfAt merged_seq intervals reverse start = .ok (some c)) :
    c.seq.length % 3 = 0 ∧ c.trailer.take 3 ∈ stop_codons := by
  obtain ⟨i, hscan, hseq, hlead, htrail⟩ :=
    orfAt_ok_some merged_seq intervals reverse start c h
  obtain ⟨hsi, hmod, hle, hstop⟩ := scanStop_spec merged_seq start i hscan
  constructor
  · rw [hseq, List.length_take, List.length_drop]
    omega
  · rw [htrail]
    exact hstop

theorem scanCodon_mem (merged_seq : List Char) (intervals : List Interval)
    (reverse : Bool) (sc : List Char) :
    ∀ (fuel cur : Nat) (cs : List Candidate) (c : Candidate),
      scanCodon merged_seq intervals reverse sc fuel cur = .ok cs → c ∈ cs →
      ∃ start, orfAt merged_seq intervals reverse start = .ok (some c) := by
  intro fuel
  induction fuel with
  | zero =>
    intro cur cs c h hc
    rw [scanCodon] at h
    obtain rfl : ([] : List Candidate) = cs := Except.ok.inj h
    cases hc
  | succ fuel ih =>
    intro cur cs c h hc
    rw [scanCodon] at h
    by_cases hcur : cur < merged_seq.length
    · rw [if_pos hcur] at h
      rcases hfind : strFind merged_seq sc cur with _ | start
      · simp only [hfind] at h
        obtain rfl : ([] : List Candidate) = cs := Except.ok.inj h
        cases hc
      · simp only [hfind] at h
        rcases horf : orfAt merged_seq intervals reverse start with msg | copt
        · simp only [horf] at h
          exact Except.noConfusion h
        · simp only [horf] at h
          rcases hrec : scanCodon merged_seq intervals reverse sc fuel (start + 1)
            with msg | rest
          · simp only [hrec] at h
            exact Except.noConfusion h
          · simp only [hrec] at h
            obtain rfl : copt.toList ++ rest = cs := Except.ok.inj h
            rw [List.mem_append] at hc
            rcases hc with hc | hc
            · rcases copt with _ | c2
              · cases hc
              · simp only [Option.toList, List.mem_singleton] at hc
                subst hc
                exact ⟨start, horf⟩
            · exact ih (start + 1) rest c hrec hc
    · rw [if_neg hcur] at h
      obtain rfl : ([] : List Candidate) = cs := Except.ok.inj h
      cases hc

theorem searchCodons_mem (merged_seq : List Char) (intervals : List Interval)
    (reverse : Bool) :
    ∀ (scs : List (List Char)) (cs : List Candidate) (c : Candidate),
      searchCodons merged_seq intervals reverse scs = .ok cs → c ∈ cs →
      ∃ start, orfAt merged_seq intervals reverse start = .ok (some c) := by
  intro scs
  induction scs with
  | nil =>
    intro cs c h hc
    obtain rfl : ([] : List Candidate) = cs := Except.ok.inj h
    cases hc
  | cons sc rest ih =>
    intro cs c h hc
    rw [searchCodons] at h
    rcases h1 : scanCodon merged_seq intervals reverse sc (merged_seq.length + 1) 0
      with msg | a
    · simp only [h1] at h
      exact Except.noConfusion h
    · simp only [h1] at h
      rcases h2 : searchCodons merged_seq intervals reverse rest with msg | b
      · simp only [h2] at h
        exact Except.noConfusion h
      · simp only [h2] at h
        obtain rfl : a ++ b = cs := Except.ok.inj h
        rw [List.mem_append] at hc
        rcases hc with hc | hc
        · exact scanCodon_mem merged_seq intervals reverse sc
            (merged_seq.length + 1) 0 a c h1 hc
        · exact ih b c h2 hc

theorem search_orfs_mem (g : Int → Char) (comp : Char → Char)
    (intervals : List Interval) (orfs : List Candidate) (c : Candidate)
    (h : search_orfs g comp intervals = .ok orfs) (hc : c ∈ orfs) :
    ∃ reverse start,
      orfAt (scannedSeq g comp intervals) (merge_intervals intervals)
        reverse start = .ok (some c) := by
  unfold search_orfs at h
  by_cases hemp : intervals.isEmpty
  · rw [if_pos hemp] at h
    obtain rfl : ([] : List Candidate) = orfs := Except.ok.inj h
    cases hc
  · rw [if_neg hemp] at h
    rcases hm : merge_intervals intervals with _ | ⟨m0, rest⟩
    · simp only [hm] at h
      exact Except.noConfusion h
    · simp only [hm] at h
      exact ⟨decide (m0.strand = some "-"),
        searchCodons_mem (scannedSeq g comp intervals) (m0 :: rest)
          (decide (m0.strand = some "-")) start_codons orfs c h hc⟩

/-- C9: every candidate emitted by `search_orfs` reconstructs the whole
scanned spliced transcript sequence as leader ++ coding sequence ++
trailer. -/
theorem search_orfs_reconstruct (g : Int → Char) (comp : Char → Char)
    (intervals : List Interval) (orfs : List Candidate) (c : Candidate)
    (h : search_orfs g comp intervals = .ok orfs) (hc : c ∈ orfs) :
    c.leader ++ c.seq ++ c.trailer = scannedSeq g comp intervals := by
  obtain ⟨reverse, start, horf⟩ := search_orfs_mem g comp intervals orfs c h hc
  exact orfAt_reconstruct _ _ _ _ _ horf

/-- C9 witness: the reconstruction property applied to the candidate found
on the ATGAAATAG example transcript. -/
theorem search_orfs_reconstruct_witness :
    ([] : List Char) ++ ['A', 'T', 'G', 'A', 'A', 'A'] ++ ['T', 'A', 'G']
      = scannedSeq exGenome id [⟨some "chr1", 0, 8, some "+"⟩] :=
  search_orfs_reconstruct exGenome id [⟨some "chr1", 0, 8, some "+"⟩]
    [⟨[⟨none, 0, 8, none⟩], ['A', 'T', 'G', 'A', 'A', 'A'], [], ['T', 'A', 'G']⟩]
    ⟨[⟨none, 0, 8, none⟩], ['A', 'T', 'G', 'A', 'A', 'A'], [], ['T', 'A', 'G']⟩
    (by rfl) (by simp)

/-- C10: every candidate emitted by `search_orfs` has a coding sequence
whose length is a multiple of 3, and a trailer beginning with one of the
stop codons TAG, TAA, TGA. -/
theorem search_orfs_frame_and_stop (g : Int → Char) (comp : Char → Char)
    (intervals : List Interval) (orfs : List Candidate) (c : Candidate)
    (h : search_orfs g comp intervals = .ok orfs) (hc : c ∈ orfs) :
    c.seq.length % 3 = 0 ∧ c.trailer.take 3 ∈ stop_codons := by
  obtain ⟨reverse, start, horf⟩ := search_orfs_mem g comp intervals orfs c h hc
  exact orfAt_frame _ _ _ _ _ horf

/-- C10 witness: frame and stop-codon property of the candidate found on
the ATGAAATAG example transcript. -/
theorem search_orfs_frame_and_stop_witness :
    (['A', 'T', 'G', 'A', 'A', 'A'] : List Char).length % 3 = 0 ∧
      (['T', 'A', 'G'] : List Char).take 3 ∈ stop_codons :=
  search_orfs_frame_and_stop exGenome id [⟨some "chr1", 0, 8, some "+"⟩]
    [⟨[⟨none, 0, 8, none⟩], ['A', 'T', 'G', 'A', 'A', 'A'], [], ['T', 'A', 'G']⟩]
    ⟨[⟨none, 0, 8, none⟩], ['A', 'T', 'G', 'A', 'A', 'A'], [], ['T', 'A', 'G']⟩
    (by rfl) (by simp)

end RiboCop
